import Mathlib

/-!
A verification development for the return-type inference engine of the
`coloco` repository (`src/coloco/inference.py`).

The Python source is shallowly embedded: Python `ast` nodes become the
inductive types `Expr` and `Stmt`; the runtime `Type` values manipulated by
the engine become the inductive type `Ty`; Python exceptions become the
error type `Err` threaded through `Except`.  Python object identity of
dynamically created `TypedDict` classes is modelled by a unique identifier
(`uid`) minted from a counter threaded through inference, since two
`TypedDict` classes created by separate calls are never equal in Python
even when their name and fields coincide, while every other `Type` value
the engine builds compares structurally (`list[int] == list[int]`, unions
compare by members, `Any` is a singleton).
-/

/-- Python exceptions that the inference code can raise.
`typeError` covers both iterating a non-string in `_sanitize_name` and
`Union[()]`; `indexError` covers out-of-range subscripts such as
`module.body[0]` on an empty module or `annotation.slice.elts[1]` for a
`Dict[...]` form with fewer than two parameters; `parseErr` is the
`SyntaxError` raised by `ast.parse`; `valueError` is the explicit
`ValueError("Input is not a function definition")`. -/
inductive Err where
  | typeError
  | indexError
  | parseErr
  | valueError
  deriving DecidableEq, Repr

/-- Non-recursive `Type` values: built-in scalar classes, `typing.Any`,
the bare `typing.Dict` / `typing.Tuple` / `typing.Union` aliases returned
by some branches of the source, and other plain class objects
(identified by name). -/
inductive Atom where
  | int
  | float
  | str
  | bool
  | noneType
  | bytes
  | any
  | bareDict
  | bareTuple
  | bareUnion
  | cls (name : String)
  deriving DecidableEq, Repr

/-- The runtime `Type` values produced by the engine: scalars, the
parameterized generic aliases `list[t]`, `set[t]`, `dict[k, v]`,
`tuple[t1, ..., tn]` (with `tupleG []` the designated empty-tuple type
`tuple[()]`), `Union[...]`, and dynamically created `TypedDict` classes.
A `typedDict` carries the `uid` that models Python object identity. -/
inductive Ty where
  | atom (a : Atom)
  | listG (t : Ty)
  | setG (t : Ty)
  | dictG (k v : Ty)
  | tupleG (ts : List Ty)
  | union (ts : List Ty)
  | typedDict (uid : Nat) (name : String) (fields : List (String × Ty))

def Ty.int : Ty := .atom .int
def Ty.float : Ty := .atom .float
def Ty.str : Ty := .atom .str
def Ty.bool : Ty := .atom .bool
def Ty.noneType : Ty := .atom .noneType
def Ty.bytes : Ty := .atom .bytes
def Ty.any : Ty := .atom .any
def Ty.bareDict : Ty := .atom .bareDict
def Ty.bareTuple : Ty := .atom .bareTuple
def Ty.bareUnion : Ty := .atom .bareUnion
def Ty.cls (n : String) : Ty := .atom (.cls n)

mutual

/-- Python `==` on the `Type` values the engine manipulates: structural
everywhere except `typedDict`, whose `uid` (object identity) must agree. -/
def Ty.beq : Ty → Ty → Bool
  | .atom a, .atom b => a == b
  | .listG a, .listG b => Ty.beq a b
  | .setG a, .setG b => Ty.beq a b
  | .dictG k1 v1, .dictG k2 v2 => Ty.beq k1 k2 && Ty.beq v1 v2
  | .tupleG as, .tupleG bs => Ty.beqList as bs
  | .union as, .union bs => Ty.beqList as bs
  | .typedDict u1 n1 f1, .typedDict u2 n2 f2 =>
      u1 == u2 && n1 == n2 && Ty.beqFields f1 f2
  | _, _ => false

def Ty.beqList : List Ty → List Ty → Bool
  | [], [] => true
  | a :: as, b :: bs => Ty.beq a b && Ty.beqList as bs
  | _, _ => false

def Ty.beqFields : List (String × Ty) → List (String × Ty) → Bool
  | [], [] => true
  | (s1, a) :: as, (s2, b) :: bs => s1 == s2 && Ty.beq a b && Ty.beqFields as bs
  | _, _ => false

end

mutual

theorem Ty.beq_iff : ∀ a b : Ty, Ty.beq a b = true ↔ a = b
  | .atom a, .atom b => by simp [Ty.beq]
  | .listG a, .listG b => by simp [Ty.beq, Ty.beq_iff a b]
  | .setG a, .setG b => by simp [Ty.beq, Ty.beq_iff a b]
  | .dictG k1 v1, .dictG k2 v2 => by
      simp [Ty.beq, Ty.beq_iff k1 k2, Ty.beq_iff v1 v2]
  | .tupleG as, .tupleG bs => by simp [Ty.beq, Ty.beqList_iff as bs]
  | .union as, .union bs => by simp [Ty.beq, Ty.beqList_iff as bs]
  | .typedDict u1 n1 f1, .typedDict u2 n2 f2 => by
      simp [Ty.beq, Ty.beqFields_iff f1 f2, and_assoc]
  | .atom _, .listG _ | .atom _, .setG _ | .atom _, .dictG _ _
  | .atom _, .tupleG _ | .atom _, .union _ | .atom _, .typedDict _ _ _
  | .listG _, .atom _ | .listG _, .setG _ | .listG _, .dictG _ _
  | .listG _, .tupleG _ | .listG _, .union _ | .listG _, .typedDict _ _ _
  | .setG _, .atom _ | .setG _, .listG _ | .setG _, .dictG _ _
  | .setG _, .tupleG _ | .setG _, .union _ | .setG _, .typedDict _ _ _
  | .dictG _ _, .atom _ | .dictG _ _, .listG _ | .dictG _ _, .setG _
  | .dictG _ _, .tupleG _ | .dictG _ _, .union _ | .dictG _ _, .typedDict _ _ _
  | .tupleG _, .atom _ | .tupleG _, .listG _ | .tupleG _, .setG _
  | .tupleG _, .dictG _ _ | .tupleG _, .union _ | .tupleG _, .typedDict _ _ _
  | .union _, .atom _ | .union _, .listG _ | .union _, .setG _
  | .union _, .dictG _ _ | .union _, .tupleG _ | .union _, .typedDict _ _ _
  | .typedDict _ _ _, .atom _ | .typedDict _ _ _, .listG _
  | .typedDict _ _ _, .setG _ | .typedDict _ _ _, .dictG _ _
  | .typedDict _ _ _, .tupleG _ | .typedDict _ _ _, .union _ => by
      simp [Ty.beq]

theorem Ty.beqList_iff : ∀ as bs : List Ty, Ty.beqList as bs = true ↔ as = bs
  | [], [] => by simp [Ty.beqList]
  | a :: as, b :: bs => by
      simp [Ty.beqList, Ty.beq_iff a b, Ty.beqList_iff as bs]
  | [], _ :: _ => by simp [Ty.beqList]
  | _ :: _, [] => by simp [Ty.beqList]

theorem Ty.beqFields_iff :
    ∀ as bs : List (String × Ty), Ty.beqFields as bs = true ↔ as = bs
  | [], [] => by simp [Ty.beqFields]
  | (s1, a) :: as, (s2, b) :: bs => by
      simp [Ty.beqFields, Ty.beq_iff a b, Ty.beqFields_iff as bs, and_assoc]
  | [], _ :: _ => by simp [Ty.beqFields]
  | _ :: _, [] => by simp [Ty.beqFields]

end

instance : DecidableEq Ty := fun a b =>
  decidable_of_iff (Ty.beq a b = true) (Ty.beq_iff a b)

deriving instance DecidableEq for Except

/-- Whether a `Type` value is a union. -/
def Ty.isUnion : Ty → Bool
  | .union _ => true
  | _ => false

/-- Deduplication as performed by Python's `set(...)` over `Type` values
(membership decided by Python `==`); first occurrences are kept in
encounter order.  CPython's set iteration order is unspecified, so any
deterministic order refines it; no downstream consumer in the source
observes the order of union members. -/
def dedupAux : List Ty → List Ty → List Ty
  | [], _ => []
  | t :: rest, seen =>
      if t ∈ seen then dedupAux rest seen else t :: dedupAux rest (t :: seen)

def dedupTy (ts : List Ty) : List Ty := dedupAux ts []

/-- One level of union flattening, as `typing.Union[...]` and the `|`
operator perform on their arguments. -/
def flattenU : List Ty → List Ty
  | [] => []
  | .union us :: rest => us ++ flattenU rest
  | t :: rest => t :: flattenU rest

/-- `Union[tuple(set(ts))]` (and equivalently the variadic `|` operator):
flatten nested unions, deduplicate by Python `==`, collapse a singleton to
its sole member; `Union[()]` raises `TypeError`. -/
def mkUnionT (ts : List Ty) : Except Err Ty :=
  match dedupTy (flattenU ts) with
  | [] => .error .typeError
  | [t] => .ok t
  | ds => .ok (.union ds)

/-- Constant literals distinguished by the engine: `type(node.value)` only
looks at the value's class, but string constants additionally matter as
dictionary keys, so their text is kept. -/
inductive ConstVal where
  | intV
  | floatV
  | strV (s : String)
  | boolV
  | noneV
  | bytesV
  deriving DecidableEq, Repr

/-- `type(node.value)` for a constant literal. -/
def tyOfConst : ConstVal → Ty
  | .intV => .int
  | .floatV => .float
  | .strV _ => .str
  | .boolV => .bool
  | .noneV => .noneType
  | .bytesV => .bytes

/-- Binary operators distinguished by `_infer_expr_type`. -/
inductive BOp where
  | add
  | sub
  | mult
  | div
  | otherOp
  deriving DecidableEq, Repr

/-- A component of `nested_path`.  The source declares the parameter as
`list[str]`, but the non-string-key branch of
`_create_typed_dict_from_dict` appends the raw key AST node
(`nested_path + [key]`); `nodeComp` stands for such a non-string
component, which `_sanitize_name` cannot iterate (TypeError). -/
inductive PathComp where
  | strComp (s : String)
  | nodeComp
  deriving DecidableEq, Repr

/-- Python expression nodes, restricted to the shapes `_infer_expr_type`
and `_resolve_annotation` distinguish.  Sub-structure the source never
inspects is dropped: call arguments, comparison operands (the result is
`bool` regardless), attribute accesses and every other shape collapse
into `other`.  Dictionary displays keep keys and values paired; a `none`
key models a `**` expansion entry (`key is None` in the AST). -/
inductive Expr where
  | dict (entries : List (Option Expr × Expr))
  | listLit (elts : List Expr)
  | tupleLit (elts : List Expr)
  | setLit (elts : List Expr)
  | const (v : ConstVal)
  | name (id : String)
  | call (callee : Expr)
  | binOp (op : BOp) (l r : Expr)
  | compare
  | ifExp (test body orelse : Expr)
  | subscript (base slice : Expr)
  | other

/-- An assignment target: a plain name, or any other target shape
(tuple unpacking, attribute, subscript), which the analyzer skips. -/
inductive Target where
  | name (id : String)
  | other
  deriving Repr

/-- Python statement nodes, restricted to what the walk in
`_analyze_function_body` and `get_return_type` distinguishes: plain and
annotated assignments, `return`, nested function definitions, `if` (a
representative compound statement carrying nested statement lists; other
compound statements expose their nested statements to `ast.walk` the same
way), expression statements and `pass`.  A function definition carries its
name, its arguments (name and optional annotation expression, matching
`func_def.args.args`), its optional return annotation (`func_def.returns`)
and its body. -/
inductive Stmt where
  | assign (targets : List Target) (value : Expr)
  | annAssign (target : Target) (tyAnn : Expr) (value : Option Expr)
  | ret (value : Option Expr)
  | funcDef (fname : String) (args : List (String × Option Expr))
      (returns : Option Expr) (body : List Stmt)
  | ifStmt (test : Expr) (body orelse : List Stmt)
  | exprStmt (e : Expr)
  | passStmt

/-- Result of `inspect.getsource` followed by `ast.parse`:
`noSource` models `inspect.getsource` raising (the one case the source
catches); `parseErr` models `ast.parse` raising `SyntaxError` on text that
was retrieved but does not parse (e.g. an indented method body);
`parsed body` is the statement list of the parsed module. -/
inductive SourceResult where
  | noSource
  | parseErr
  | parsed (body : List Stmt)

/-- What `getattr(module, name)` yields in `_get_module_type`: a class
object (modelled by the `Type` it denotes), a callable (modelled by the
result of `get_return_type` on it, the only use the source makes of it),
or some other value. -/
inductive ModuleAttr where
  | clsA (t : Ty)
  | callableA (rt : Except Err Ty)
  | otherA

/-- The function handle given to `get_return_type`: its `__name__`, its
runtime `__annotations__` mapping, the outcome of retrieving and parsing
its source, and the attributes of its declaring module (the read-only
oracle behind `_get_module_type`). -/
structure Func where
  fname : String
  anns : List (String × Ty)
  src : SourceResult
  modAttrs : List (String × ModuleAttr)

/-- `_get_module_type(func, name)`: look the name up in the function's
declaring module; a class is returned as-is, a callable contributes its
own inferred return type (any exception it raises propagates), anything
else — including a missing module or attribute — degrades to `Any`.  The
source receives `func` and reads only `sys.modules[func.__module__]`;
the embedding passes that module's attribute map directly. -/
def _get_module_type (mod : List (String × ModuleAttr)) (name : String) :
    Except Err Ty :=
  match mod.lookup name with
  | some (.clsA t) => .ok t
  | some (.callableA rt) => rt
  | some .otherA => .ok .any
  | none => .ok .any

/-- Python `str.split("_")` over the character list (defined structurally
so that concrete computations reduce): consecutive separators yield empty
words, the empty string yields one empty word. -/
def splitUnderscore : List Char → List (List Char)
  | [] => [[]]
  | c :: rest =>
      if c = '_' then [] :: splitUnderscore rest
      else
        match splitUnderscore rest with
        | [] => [[c]]
        | w :: ws => (c :: w) :: ws

/-- Python `str.capitalize()`: first character upper-cased, the rest
lower-cased. -/
def pyCapitalize : List Char → List Char
  | [] => []
  | c :: rest => c.toUpper :: rest.map Char.toLower

/-- `_snake_case_to_capital_case`: split on underscores and capitalize
each word. -/
def _snake_case_to_capital_case (name : String) : String :=
  String.mk (((splitUnderscore name.toList).map pyCapitalize).flatten)

/-- `_sanitize_name`: keep only alphanumeric characters.  Iterating a
non-string path component (the raw AST node the source appends in its
non-string-key branch) raises `TypeError`. -/
def _sanitize_name : PathComp → Except Err String
  | .strComp s => .ok (String.mk (s.toList.filter Char.isAlphanum))
  | .nodeComp => .error .typeError

/-- The class-name accumulation loop of `_create_typed_dict_from_dict`:
starting from `cap(func.__name__) ++ "Return"`, append
`cap(sanitize(component))` for each component of `nested_path`. -/
def tdNameLoop : String → List PathComp → Except Err String
  | acc, [] => .ok acc
  | acc, comp :: rest => do
      let s ← _sanitize_name comp
      tdNameLoop (acc ++ _snake_case_to_capital_case s) rest

/-- The synthesized record name for a dict literal at `path` inside the
function named `fname`. -/
def tdName (fname : String) (path : List PathComp) : Except Err String :=
  tdNameLoop (_snake_case_to_capital_case fname ++ "Return") path

/-- The type-valued entries of `__builtins__` consulted by name.  The
source checks `type_name in __builtins__`; only type-valued builtins are
modelled (for annotation resolution the source would return even a
non-type builtin such as `len`, a case no inference path meaningfully
consumes and no claim depends on). -/
def builtinTy : String → Option Ty
  | "int" => some Ty.int
  | "float" => some Ty.float
  | "str" => some Ty.str
  | "bool" => some Ty.bool
  | "bytes" => some Ty.bytes
  | "list" => some (Ty.cls "list")
  | "dict" => some (Ty.cls "dict")
  | "set" => some (Ty.cls "set")
  | "tuple" => some (Ty.cls "tuple")
  | "object" => some (Ty.cls "object")
  | "type" => some (Ty.cls "type")
  | _ => none

/-- The per-function symbol table: variable name to inferred type,
last write wins (lookup finds the most recent insertion). -/
abbrev SymTable := List (String × Ty)

def symInsert (st : SymTable) (x : String) (t : Ty) : SymTable := (x, t) :: st

def symLookup (st : SymTable) (x : String) : Option Ty := st.lookup x

mutual

/-- `_resolve_annotation(annotation, type_context, func)` (the
`type_context` argument is always passed as the empty mapping and never
read by the source; it is kept for signature fidelity; the `func`
argument is consulted only through `_get_module_type`, so the embedding
passes the declaring module's attribute map `mod` in its place, making it
manifest that resolution never reads the function's source).  Plain
names are
looked up among the builtins and then in the declaring module;
parameterized `List`/`Dict`/`Set`/`Tuple`/`Optional`/`Union` forms recurse
into their parameters; everything else degrades to `Any`.  A `Dict[...]`
whose slice is a tuple of fewer than two elements raises `IndexError`
(`annotation.slice.elts[0]` / `elts[1]`), and `Union[()]` raises
`TypeError` inside `typing.Union`. -/
def _resolve_ann :
    Expr → List (String × Ty) → List (String × ModuleAttr) → Except Err Ty
  | .name id, _, mod =>
      match builtinTy id with
      | some t => .ok t
      | none => _get_module_type mod id
  | .subscript (.name base) slice, tc, mod =>
      if base = "List" ∨ base = "list" then do
        let elemT ← _resolve_ann slice tc mod
        .ok (.listG elemT)
      else if base = "Dict" ∨ base = "dict" then
        match slice with
        | .tupleLit [] => .error .indexError
        | .tupleLit [e0] => do
            let _ ← _resolve_ann e0 tc mod
            .error .indexError
        | .tupleLit (e0 :: e1 :: _) => do
            let keyT ← _resolve_ann e0 tc mod
            let valT ← _resolve_ann e1 tc mod
            .ok (.dictG keyT valT)
        | _ => .ok .bareDict
      else if base = "Set" ∨ base = "set" then do
        let elemT ← _resolve_ann slice tc mod
        .ok (.setG elemT)
      else if base = "Tuple" ∨ base = "tuple" then
        match slice with
        | .tupleLit elts => do
            let ts ← _resolve_annList elts tc mod
            .ok (.tupleG ts)
        | _ => .ok .bareTuple
      else if base = "Optional" then do
        let elemT ← _resolve_ann slice tc mod
        mkUnionT [elemT, .noneType]
      else if base = "Union" then
        match slice with
        | .tupleLit elts => do
            let ts ← _resolve_annList elts tc mod
            mkUnionT ts
        | _ => .ok .bareUnion
      else .ok .any
  | _, _, _ => .ok .any
termination_by a _ _ => (sizeOf a, 0)
decreasing_by all_goals (simp_wf; omega)

/-- Resolution of each element of a parameter tuple, in source order. -/
def _resolve_annList :
    List Expr → List (String × Ty) → List (String × ModuleAttr) →
      Except Err (List Ty)
  | [], _, _ => .ok []
  | e :: rest, tc, mod => do
      let t ← _resolve_ann e tc mod
      let ts ← _resolve_annList rest tc mod
      .ok (t :: ts)
termination_by l _ _ => (sizeOf l, 1)
decreasing_by all_goals (simp_wf; omega)

end

mutual

/-- `_infer_expr_type(node, symbol_table, func, nested_path)`, with the
identity counter `uid` threaded through (each `TypedDict` synthesis mints
a fresh identity).  Dispatch on expression shape exactly as the source's
`isinstance` chain. -/
def _infer_expr_type :
    Expr → SymTable → Func → List PathComp → Nat → Except Err (Ty × Nat)
  | .dict entries, st, f, path, uid =>
      _create_typed_dict_from_dict entries st f path uid
  | .listLit [], _, _, _, uid => .ok (.listG .any, uid)
  | .listLit (e :: rest), st, f, path, uid => do
      let (ts, uid1) ← _infer_list (e :: rest) st f path uid
      match dedupTy ts with
      | [t] => .ok (.listG t, uid1)
      | _ => do
          let u ← mkUnionT ts
          .ok (.listG u, uid1)
  | .tupleLit [], _, _, _, uid => .ok (.tupleG [], uid)
  | .tupleLit (e :: rest), st, f, path, uid => do
      let (ts, uid1) ← _infer_list (e :: rest) st f path uid
      .ok (.tupleG ts, uid1)
  | .setLit [], _, _, _, uid => .ok (.setG .any, uid)
  | .setLit (e :: rest), st, f, path, uid => do
      let (ts, uid1) ← _infer_list (e :: rest) st f path uid
      match dedupTy ts with
      | [t] => .ok (.setG t, uid1)
      | _ => do
          let u ← mkUnionT ts
          .ok (.setG u, uid1)
  | .const v, _, _, _, uid => .ok (tyOfConst v, uid)
  | .name id, st, f, _, uid =>
      match symLookup st id with
      | some t => .ok (t, uid)
      | none =>
          match builtinTy id with
          | some t => .ok (t, uid)
          | none => do
              let t ← _get_module_type f.modAttrs id
              .ok (t, uid)
  | .call (.name fn), _, f, _, uid =>
      if fn = "int" then .ok (.int, uid)
      else if fn = "str" then .ok (.str, uid)
      else if fn = "float" then .ok (.float, uid)
      else if fn = "list" then .ok (.listG .any, uid)
      else if fn = "dict" then .ok (.dictG .any .any, uid)
      else if fn = "set" then .ok (.setG .any, uid)
      else if fn = "tuple" then .ok (.bareTuple, uid)
      else do
        let t ← _get_module_type f.modAttrs fn
        .ok (t, uid)
  | .call _, _, _, _, uid => .ok (.any, uid)
  | .binOp op l r, st, f, path, uid => do
      let (lt, uid1) ← _infer_expr_type l st f path uid
      let (rt, uid2) ← _infer_expr_type r st f path uid1
      if op = .add ∧ (lt = Ty.str ∨ rt = Ty.str) then .ok (.str, uid2)
      else if op = .add ∨ op = .sub ∨ op = .mult ∨ op = .div then
        if lt = Ty.float ∨ rt = Ty.float then .ok (.float, uid2)
        else .ok (.int, uid2)
      else .ok (.any, uid2)
  | .compare, _, _, _, uid => .ok (.bool, uid)
  | .ifExp _ b o, st, f, path, uid => do
      let (bt, uid1) ← _infer_expr_type b st f path uid
      let (ot, uid2) ← _infer_expr_type o st f path uid1
      let u ← mkUnionT [bt, ot]
      .ok (u, uid2)
  | .subscript _ _, _, _, _, uid => .ok (.any, uid)
  | .other, _, _, _, uid => .ok (.any, uid)
termination_by e _ _ _ _ => (sizeOf e, 1)
decreasing_by all_goals (simp_wf; omega)

/-- Element-wise inference of a literal's elements, in source order. -/
def _infer_list :
    List Expr → SymTable → Func → List PathComp → Nat → Except Err (List Ty × Nat)
  | [], _, _, _, uid => .ok ([], uid)
  | e :: rest, st, f, path, uid => do
      let (t, uid1) ← _infer_expr_type e st f path uid
      let (ts, uid2) ← _infer_list rest st f path uid1
      .ok (t :: ts, uid2)
termination_by l _ _ _ _ => (sizeOf l, 0)
decreasing_by all_goals (simp_wf; omega)

/-- `_create_typed_dict_from_dict(dict_node, symbol_table, func,
nested_path)`.  If every key is a string constant and there is at least
one field, synthesize a fresh `TypedDict` whose name extends the
capitalized function name with `Return` and the sanitized capitalized
path components; an empty literal yields `dict[Any, Any]`; otherwise fall
back to a general `dict[...]` over the key and value types.  (With
duplicate string keys Python's dict would keep a single entry per key;
such literals are not exercised here and the field list keeps each
occurrence.) -/
def _create_typed_dict_from_dict :
    List (Option Expr × Expr) → SymTable → Func → List PathComp → Nat →
      Except Err (Ty × Nat)
  | [], _, _, _, uid => .ok (.dictG .any .any, uid)
  | e0 :: erest, st, f, path, uid => do
      let (fieldsO, uid1) ← _collect_fields (e0 :: erest) st f path uid
      match fieldsO with
      | some (fld :: flds) => do
          let cn ← tdName f.fname path
          .ok (.typedDict uid1 cn (fld :: flds), uid1 + 1)
      | _ => do
          let (kts, uid2) ← _infer_keys (e0 :: erest) st f path uid1
          let (vts, uid3) ← _infer_values (e0 :: erest) st f path uid2
          match dedupTy kts, dedupTy vts with
          | [k], [v] => .ok (.dictG k v, uid3)
          | [k], _ => do
              let uv ← mkUnionT vts
              .ok (.dictG k uv, uid3)
          | _, [v] => do
              let uk ← mkUnionT kts
              .ok (.dictG uk v, uid3)
          | _, _ => do
              let uk ← mkUnionT kts
              let uv ← mkUnionT vts
              .ok (.dictG uk uv, uid3)
termination_by entries _ _ _ _ => (sizeOf entries, 3)
decreasing_by all_goals (simp_wf; omega)

/-- The first loop of `_create_typed_dict_from_dict`: walk the entries
while every key is a string constant, inferring each value's type with
the key appended to `nested_path`; stop at the first non-string key
(`some fields` means all keys were string constants). -/
def _collect_fields :
    List (Option Expr × Expr) → SymTable → Func → List PathComp → Nat →
      Except Err (Option (List (String × Ty)) × Nat)
  | [], _, _, _, uid => .ok (some [], uid)
  | (some (.const (.strV s)), v) :: rest, st, f, path, uid => do
      let (tv, uid1) ← _infer_expr_type v st f (path ++ [.strComp s]) uid
      let (restO, uid2) ← _collect_fields rest st f path uid1
      match restO with
      | some flds => .ok (some ((s, tv) :: flds), uid2)
      | none => .ok (none, uid2)
  | _, _, _, _, uid => .ok (none, uid)
termination_by entries _ _ _ _ => (sizeOf entries, 0)
decreasing_by all_goals (simp_wf; omega)

/-- Key inference of the general-dict fallback: every key — including
string constants — is inferred with the raw key node appended to
`nested_path` (`nested_path + [key]`, the non-string component);
a `None` key (a `**` expansion) matches no `isinstance` branch and
yields `Any`. -/
def _infer_keys :
    List (Option Expr × Expr) → SymTable → Func → List PathComp → Nat →
      Except Err (List Ty × Nat)
  | [], _, _, _, uid => .ok ([], uid)
  | (none, _) :: rest, st, f, path, uid => do
      let (ts, uid1) ← _infer_keys rest st f path uid
      .ok (.any :: ts, uid1)
  | (some k, _) :: rest, st, f, path, uid => do
      let (t, uid1) ← _infer_expr_type k st f (path ++ [.nodeComp]) uid
      let (ts, uid2) ← _infer_keys rest st f path uid1
      .ok (t :: ts, uid2)
termination_by entries _ _ _ _ => (sizeOf entries, 0)
decreasing_by all_goals (simp_wf; omega)

/-- Value inference of the general-dict fallback, with the unextended
`nested_path`. -/
def _infer_values :
    List (Option Expr × Expr) → SymTable → Func → List PathComp → Nat →
      Except Err (List Ty × Nat)
  | [], _, _, _, uid => .ok ([], uid)
  | (_, v) :: rest, st, f, path, uid => do
      let (t, uid1) ← _infer_expr_type v st f path uid
      let (ts, uid2) ← _infer_values rest st f path uid1
      .ok (t :: ts, uid2)
termination_by entries _ _ _ _ => (sizeOf entries, 0)
decreasing_by all_goals (simp_wf; omega)

end

/-- The statement children a statement exposes to `ast.walk`.  Statements
never occur inside expressions in Python's AST, so restricting the walk to
statement nodes preserves both the set and the relative breadth-first
order of the `Assign`/`AnnAssign`/`Return` nodes the loops filter for. -/
def stmtChildren : Stmt → List Stmt
  | .funcDef _ _ _ body => body
  | .ifStmt _ body orelse => body ++ orelse
  | _ => []

mutual

/-- Size of a statement counting only statement nodes (the derived
`SizeOf` instance of the nested inductive has no executable code, so the
walk's termination measure is defined by hand). -/
def stmtSize : Stmt → Nat
  | .funcDef _ _ _ body => 1 + stmtListSize body
  | .ifStmt _ body orelse => 1 + stmtListSize body + stmtListSize orelse
  | .assign _ _ => 1
  | .annAssign _ _ _ => 1
  | .ret _ => 1
  | .exprStmt _ => 1
  | .passStmt => 1

/-- Total statement-node size of a statement list. -/
def stmtListSize : List Stmt → Nat
  | [] => 0
  | s :: rest => stmtSize s + stmtListSize rest

end

theorem stmtListSize_append (l1 l2 : List Stmt) :
    stmtListSize (l1 ++ l2) = stmtListSize l1 + stmtListSize l2 := by
  induction l1 with
  | nil => simp [stmtListSize]
  | cons s rest ih => simp [stmtListSize, ih]; omega

theorem stmtChildren_size_lt (s : Stmt) :
    stmtListSize (stmtChildren s) < stmtSize s := by
  cases s with
  | funcDef n a r body => simp [stmtChildren, stmtSize]
  | ifStmt t body orelse =>
      simp [stmtChildren, stmtSize, stmtListSize_append]
  | assign targets value => simp [stmtChildren, stmtSize, stmtListSize]
  | annAssign t ann v => simp [stmtChildren, stmtSize, stmtListSize]
  | ret v => simp [stmtChildren, stmtSize, stmtListSize]
  | exprStmt e => simp [stmtChildren, stmtSize, stmtListSize]
  | passStmt => simp [stmtChildren, stmtSize, stmtListSize]

/-- `ast.walk`: breadth-first traversal with a FIFO queue — yield the
front node and enqueue its children.  Restricted to statement nodes (see
`stmtChildren`). -/
def walkStmts : List Stmt → List Stmt
  | [] => []
  | s :: q => s :: walkStmts (q ++ stmtChildren s)
termination_by l => stmtListSize l
decreasing_by
  simp [stmtListSize, stmtListSize_append]
  have := stmtChildren_size_lt s
  omega

/-- Overwriting of the symbol table by an assignment's targets: only
plain-name targets are recorded. -/
def assignTargets : List Target → Ty → SymTable → SymTable
  | [], _, st => st
  | .name x :: rest, t, st => assignTargets rest t (symInsert st x t)
  | .other :: rest, t, st => assignTargets rest t st

/-- Parameter seeding of `_analyze_function_body`: each annotated
parameter contributes its resolved annotation; unannotated parameters are
absent from the table. -/
def seedParams :
    List (String × Option Expr) → List (String × ModuleAttr) → SymTable →
      Except Err SymTable
  | [], _, st => .ok st
  | (x, some ann) :: rest, mod, st => do
      let t ← _resolve_ann ann [] mod
      seedParams rest mod (symInsert st x t)
  | (_, none) :: rest, mod, st => seedParams rest mod st

/-- The assignment loop of `_analyze_function_body`, over the full
breadth-first walk of the function definition: a plain assignment infers
its right-hand side under the table built so far and overwrites every
plain-name target; an annotated assignment with a plain-name target
records its resolved annotation; every other statement is skipped. -/
def analyzeWalk : List Stmt → SymTable → Func → Nat → Except Err (SymTable × Nat)
  | [], st, _, uid => .ok (st, uid)
  | .assign targets value :: rest, st, f, uid => do
      let (t, uid1) ← _infer_expr_type value st f [] uid
      analyzeWalk rest (assignTargets targets t st) f uid1
  | .annAssign (.name x) ann _ :: rest, st, f, uid => do
      let t ← _resolve_ann ann [] f.modAttrs
      analyzeWalk rest (symInsert st x t) f uid
  | _ :: rest, st, f, uid => analyzeWalk rest st f uid

/-- The return-collection loop of `get_return_type`, over the same
breadth-first walk: every `Return` with a value contributes the type of
its expression, inferred under the final symbol table. -/
def collectReturns : List Stmt → SymTable → Func → Nat → Except Err (List Ty × Nat)
  | [], _, _, uid => .ok ([], uid)
  | .ret (some v) :: rest, st, f, uid => do
      let (t, uid1) ← _infer_expr_type v st f [] uid
      let (ts, uid2) ← collectReturns rest st f uid1
      .ok (t :: ts, uid2)
  | _ :: rest, st, f, uid => collectReturns rest st f uid

/-- `_analyze_function_body(func_def, symbol_table, func)`: seed the
fresh table from the parameter list, then process the walk's assignments.
`walked` is the breadth-first walk of the function definition node. -/
def _analyze_function_body (args : List (String × Option Expr))
    (walked : List Stmt) (f : Func) : Except Err (SymTable × Nat) := do
  let st0 ← seedParams args f.modAttrs []
  analyzeWalk walked st0 f 0

/-- The final unification block of `get_return_type` (its last lines): no
collected return statements give `Any`, a single one is returned verbatim,
several are joined by `Union[tuple(set(return_types))]`. -/
def unifyReturns (rts : List Ty) : Except Err Ty :=
  match rts with
  | [] => .ok .any
  | [t] => .ok t
  | ts => mkUnionT ts

/-- `get_return_type(func)`: short-circuit on a runtime `return`
annotation; fall back to `Any` when `inspect.getsource` raises; propagate
the `SyntaxError` of `ast.parse` (it is outside the `try`); take
`module.body[0]` (IndexError on an empty module); `ValueError` unless it
is a function definition; short-circuit on a signature return annotation;
otherwise analyze the body, collect every return statement's type, and
unify with `unifyReturns`. -/
def get_return_type (f : Func) : Except Err Ty :=
  match f.anns.lookup "return" with
  | some t => .ok t
  | none =>
    match f.src with
    | .noSource => .ok .any
    | .parseErr => .error .parseErr
    | .parsed [] => .error .indexError
    | .parsed (first :: _) =>
      match first with
      | .funcDef _ _ (some ann) _ => _resolve_ann ann [] f.modAttrs
      | .funcDef _ args none _ => do
          let walked := walkStmts [first]
          let (st, uid1) ← _analyze_function_body args walked f
          let (rts, _) ← collectReturns walked st f uid1
          unifyReturns rts
      | _ => .error .valueError

/-- `fill_inferred_type_hints(func)`: if the `return` slot of
`__annotations__` is absent, compute `get_return_type` and write it
there; otherwise leave the function untouched. -/
def fill_inferred_type_hints (f : Func) : Except Err Func :=
  match f.anns.lookup "return" with
  | some _ => .ok f
  | none => do
      let t ← get_return_type f
      .ok { f with anns := f.anns ++ [("return", t)] }


theorem dedupAux_all_seen (l : List Ty) (seen : List Ty)
    (h : ∀ t ∈ l, t ∈ seen) : dedupAux l seen = [] := by
  induction l with
  | nil => rfl
  | cons a as ih =>
      have ha : a ∈ seen := h a (by simp)
      simp only [dedupAux, if_pos ha]
      exact ih (fun t ht => h t (by simp [ht]))

/-- Deduplicating a non-empty list whose members are all the same value
keeps exactly that value. -/
theorem dedupTy_all_eq (ts : List Ty) (t0 : Ty) (hne : ts ≠ [])
    (hall : ∀ t ∈ ts, t = t0) : dedupTy ts = [t0] := by
  match ts with
  | [] => exact absurd rfl hne
  | a :: rest =>
      have ha : a = t0 := hall a (by simp)
      subst ha
      simp only [dedupTy, dedupAux, List.not_mem_nil, if_false]
      rw [dedupAux_all_seen rest [a]
        (fun t ht => by simp [hall t (by simp [ht])])]

/-- Flattening is the identity on union-free lists. -/
theorem flattenU_of_unionFree (ts : List Ty)
    (h : ∀ t ∈ ts, t.isUnion = false) : flattenU ts = ts := by
  induction ts with
  | nil => rfl
  | cons a rest ih =>
      have ha : a.isUnion = false := h a (by simp)
      have hrest := ih (fun t ht => h t (by simp [ht]))
      cases a <;> simp_all [flattenU, Ty.isUnion]

theorem mem_of_mem_dedupAux :
    ∀ (ts seen : List Ty) (x : Ty), x ∈ dedupAux ts seen → x ∈ ts := by
  intro ts
  induction ts with
  | nil => intro seen x hx; simp [dedupAux] at hx
  | cons t rest ih =>
      intro seen x hx
      by_cases ht : t ∈ seen
      · simp only [dedupAux, if_pos ht] at hx
        exact List.mem_cons_of_mem _ (ih seen x hx)
      · simp only [dedupAux, if_neg ht] at hx
        rcases List.mem_cons.mp hx with rfl | hx2
        · simp
        · exact List.mem_cons_of_mem _ (ih (t :: seen) x hx2)

/-- Every member of the deduplicated list comes from the original list. -/
theorem mem_of_mem_dedupTy (ts : List Ty) (x : Ty) (h : x ∈ dedupTy ts) :
    x ∈ ts :=
  mem_of_mem_dedupAux ts [] x h

/-- `Union[tuple(set(ts))]` over a non-empty union-free list whose members
are all equal collapses to that single member. -/
theorem mkUnionT_all_eq (ts : List Ty) (t0 : Ty) (hne : ts ≠ [])
    (hall : ∀ t ∈ ts, t = t0) (hu : t0.isUnion = false) :
    mkUnionT ts = .ok t0 := by
  have hfree : ∀ t ∈ ts, t.isUnion = false := fun t ht => (hall t ht) ▸ hu
  rw [mkUnionT, flattenU_of_unionFree ts hfree, dedupTy_all_eq ts t0 hne hall]

/-- `Union[tuple(set(ts))]` over a union-free list never yields a union
with fewer than two members. -/
theorem mkUnionT_no_small_union (ts : List Ty) (r : Ty)
    (hfree : ∀ t ∈ ts, t.isUnion = false) (h : mkUnionT ts = .ok r) :
    ∀ us, r = .union us → 2 ≤ us.length := by
  intro us hr
  rw [mkUnionT, flattenU_of_unionFree ts hfree] at h
  rcases hd : dedupTy ts with _ | ⟨d0, _ | ⟨d1, ds⟩⟩ <;> rw [hd] at h
  · simp at h
  · simp only [Except.ok.injEq] at h
    subst h
    have hmem : d0 ∈ ts := mem_of_mem_dedupTy ts d0 (by simp [hd])
    have hu := hfree d0 hmem
    rw [hr] at hu
    simp [Ty.isUnion] at hu
  · simp only [Except.ok.injEq] at h
    rw [← h] at hr
    injection hr with h2
    simp [← h2]

/-- `Union[tuple(set(ts))]` over a union-free list with at least two
distinct members is the union of the deduplicated members. -/
theorem mkUnionT_unionFree_multi (ts : List Ty) (d : List Ty)
    (hfree : ∀ t ∈ ts, t.isUnion = false) (hd : dedupTy ts = d)
    (hlen : 2 ≤ d.length) : mkUnionT ts = .ok (.union d) := by
  rw [mkUnionT, flattenU_of_unionFree ts hfree, hd]
  rcases d with _ | ⟨d0, _ | ⟨d1, ds⟩⟩
  · simp at hlen
  · simp at hlen
  · rfl

/-- Appending a fresh key to an association list makes it found by lookup. -/
theorem lookup_append_of_none {β : Type} (l : List (String × β)) (k : String)
    (v : β) (h : l.lookup k = none) : (l ++ [(k, v)]).lookup k = some v := by
  induction l with
  | nil => simp [List.lookup]
  | cons p rest ih =>
      obtain ⟨k1, v1⟩ := p
      cases hk : (k == k1) with
      | true => simp [List.lookup, hk] at h
      | false =>
          simp only [List.lookup, hk, List.cons_append] at h ⊢
          exact ih h

/-- The breadth-first walk contains every statement of its worklist. -/
theorem mem_walkStmts_of_mem : ∀ (q : List Stmt) (s : Stmt), s ∈ q → s ∈ walkStmts q := by
  intro q
  induction q using walkStmts.induct with
  | case1 => intro s h; simp at h
  | case2 x q2 ih =>
      intro s h
      rw [walkStmts]
      rcases List.mem_cons.mp h with rfl | h2
      · exact List.mem_cons_self _ _
      · exact List.mem_cons_of_mem _ (ih s (List.mem_append_left _ h2))

/-- The breadth-first walk is closed under statement children: the
children of every walked statement are walked as well. -/
theorem walkStmts_children_closed :
    ∀ (q : List Stmt) (s : Stmt), s ∈ walkStmts q →
      ∀ t ∈ stmtChildren s, t ∈ walkStmts q := by
  intro q
  induction q using walkStmts.induct with
  | case1 => intro s hs; simp [walkStmts] at hs
  | case2 x q2 ih =>
      intro s hs t ht
      rw [walkStmts] at hs ⊢
      rcases List.mem_cons.mp hs with rfl | hs2
      · exact List.mem_cons_of_mem _
          (mem_walkStmts_of_mem _ _ (List.mem_append_right _ ht))
      · exact List.mem_cons_of_mem _ (ih s hs2 t ht)

/-- Whether a statement is a `return` carrying a value (the filter of the
return-collection loop). -/
def isRetVal : Stmt → Bool
  | .ret (some _) => true
  | _ => false

/-- A successful return-collection pass yields exactly one entry per
value-carrying `return` statement of the walked list. -/
theorem collectReturns_length :
    ∀ (walked : List Stmt) (st : SymTable) (f : Func) (uid : Nat)
      (ts : List Ty) (uid2 : Nat),
      collectReturns walked st f uid = .ok (ts, uid2) →
      ts.length = (walked.filter isRetVal).length := by
  intro walked
  induction walked with
  | nil =>
      intro st f uid ts uid2 h
      simp only [collectReturns, Except.ok.injEq, Prod.mk.injEq] at h
      simp [← h.1]
  | cons s rest ih =>
      intro st f uid ts uid2 h
      cases s with
      | ret v =>
          cases v with
          | none =>
              simp only [collectReturns] at h
              simpa [isRetVal] using ih st f uid ts uid2 h
          | some e =>
              simp only [collectReturns] at h
              cases hi : _infer_expr_type e st f [] uid with
              | error err => rw [hi] at h; simp [bind, Except.bind] at h
              | ok p =>
                  obtain ⟨t, uid1⟩ := p
                  rw [hi] at h
                  simp only [bind, Except.bind] at h
                  cases hc : collectReturns rest st f uid1 with
                  | error err => rw [hc] at h; simp at h
                  | ok q =>
                      obtain ⟨ts1, uidr⟩ := q
                      rw [hc] at h
                      simp only [Except.ok.injEq, Prod.mk.injEq] at h
                      rw [← h.1]
                      simpa [isRetVal] using ih st f uid1 ts1 uidr hc
      | assign targets value =>
          simp only [collectReturns] at h
          simpa [isRetVal] using ih st f uid ts uid2 h
      | annAssign tgt ann v =>
          simp only [collectReturns] at h
          simpa [isRetVal] using ih st f uid ts uid2 h
      | funcDef n a r b =>
          simp only [collectReturns] at h
          simpa [isRetVal] using ih st f uid ts uid2 h
      | ifStmt t b o =>
          simp only [collectReturns] at h
          simpa [isRetVal] using ih st f uid ts uid2 h
      | exprStmt e =>
          simp only [collectReturns] at h
          simpa [isRetVal] using ih st f uid ts uid2 h
      | passStmt =>
          simp only [collectReturns] at h
          simpa [isRetVal] using ih st f uid ts uid2 h

/-- The runtime-annotated function used to witness claim C1. -/
def c1AnnFunc : Func := ⟨"f", [("return", Ty.int)], .noSource, []⟩

/-- Claim C1: for every function that carries an explicit return
annotation — either in its runtime annotations or in its parsed
signature — `get_return_type` returns exactly that annotation's resolved
type, without consulting the function body's return statements or
assignments.  The runtime annotation (already a resolved type object) is
returned as-is; a signature annotation is resolved by
`_resolve_annotation`, whose result depends only on the annotation and
the declaring module, never on the body (the third conjunct makes the
body-independence explicit). -/
theorem c1_explicit_return_short_circuits :
    (∀ (f : Func) (t : Ty), f.anns.lookup "return" = some t →
       get_return_type f = .ok t)
    ∧ (∀ (nm dn : String) (an : List (String × Ty))
        (args : List (String × Option Expr)) (ann : Expr)
        (body rest : List Stmt) (mo : List (String × ModuleAttr)),
        an.lookup "return" = none →
        get_return_type ⟨nm, an, .parsed (.funcDef dn args (some ann) body :: rest), mo⟩ =
          _resolve_ann ann [] mo)
    ∧ (∀ (nm dn : String) (an : List (String × Ty))
        (args1 args2 : List (String × Option Expr)) (ann : Expr)
        (body1 body2 rest1 rest2 : List Stmt) (mo : List (String × ModuleAttr)),
        an.lookup "return" = none →
        get_return_type ⟨nm, an, .parsed (.funcDef dn args1 (some ann) body1 :: rest1), mo⟩ =
          get_return_type ⟨nm, an, .parsed (.funcDef dn args2 (some ann) body2 :: rest2), mo⟩) := by
  have hsig : ∀ (nm dn : String) (an : List (String × Ty))
      (args : List (String × Option Expr)) (ann : Expr)
      (body rest : List Stmt) (mo : List (String × ModuleAttr)),
      an.lookup "return" = none →
      get_return_type ⟨nm, an, .parsed (.funcDef dn args (some ann) body :: rest), mo⟩ =
        _resolve_ann ann [] mo := by
    intro nm dn an args ann body rest mo h
    simp [get_return_type, h]
  refine ⟨?_, hsig, ?_⟩
  · intro f t h
    simp [get_return_type, h]
  · intro nm dn an args1 args2 ann body1 body2 rest1 rest2 mo h
    rw [hsig nm dn an args1 ann body1 rest1 mo h,
      hsig nm dn an args2 ann body2 rest2 mo h]

/-- Witness for C1: a function with runtime annotation `int` short-circuits
to `int`; a signature-annotated function resolves its annotation and two
function handles differing only in their bodies infer identically. -/
theorem c1_witness :
    get_return_type c1AnnFunc = .ok Ty.int
    ∧ get_return_type ⟨"f", [], .parsed [.funcDef "f" [] (some (.name "int"))
        [.ret (some (.const (.strV "s")))]], []⟩ = _resolve_ann (.name "int") [] []
    ∧ get_return_type ⟨"f", [], .parsed [.funcDef "f" [] (some (.name "int"))
        [.ret (some (.const (.strV "s")))]], []⟩ =
      get_return_type ⟨"f", [], .parsed [.funcDef "f" [] (some (.name "int"))
        [.ret (some (.const .boolV))]], []⟩ :=
  ⟨c1_explicit_return_short_circuits.1 c1AnnFunc Ty.int (by simp [c1AnnFunc, List.lookup]),
   c1_explicit_return_short_circuits.2.1 "f" "f" [] [] (.name "int")
     [.ret (some (.const (.strV "s")))] [] [] (by simp [List.lookup]),
   c1_explicit_return_short_circuits.2.2 "f" "f" [] [] [] (.name "int")
     [.ret (some (.const (.strV "s")))] [.ret (some (.const .boolV))] [] [] []
     (by simp [List.lookup])⟩

/-- A function whose body assigns `x` an int and returns `x`. -/
def c2FuncA : Func :=
  ⟨"f", [], .parsed [.funcDef "f" [] none
    [.assign [.name "x"] (.const .intV),
     .ret (some (.name "x"))]], []⟩

/-- The same function with an additional assignment `x = "s"` placed
after the return statement. -/
def c2FuncB : Func :=
  ⟨"f", [], .parsed [.funcDef "f" [] none
    [.assign [.name "x"] (.const .intV),
     .ret (some (.name "x")),
     .assign [.name "x"] (.const (.strV "s"))]], []⟩

/-- Counterexample to claim C2: the claim predicts that the assignment
`x = "s"` occurring after `return x` cannot influence the type inferred
for that return (which would then be `int`, as in `c2FuncA`); in the code
all assignments are processed in a full pre-pass before any return is
inferred, so the return in `c2FuncB` is typed `str`. -/
theorem c2_counterexample :
    get_return_type c2FuncA = .ok Ty.int
    ∧ get_return_type c2FuncB = .ok Ty.str
    ∧ Ty.str ≠ Ty.int := by
  refine ⟨?_, ?_, by decide⟩ <;>
    simp [get_return_type, c2FuncA, c2FuncB, walkStmts, stmtChildren,
      _analyze_function_body, seedParams, analyzeWalk, collectReturns,
      assignTargets, unifyReturns, _infer_expr_type, tyOfConst, symLookup,
      symInsert, builtinTy, _get_module_type, bind, Except.bind, List.lookup]

/-- Amended claim C2: the analyzer performs a full pre-pass over all
assignments of the walked function definition (breadth-first, last
processed wins) and only then types every return statement against the
resulting final symbol table — so an assignment occurring after a return
statement in source order does influence the type inferred for that
earlier return.  For any constants `a` then `b` assigned to `x` around
`return x`, the return is typed by the later assignment `b`. -/
theorem c2_amended_final_table_wins :
    ∀ (a b : ConstVal),
      get_return_type ⟨"f", [], .parsed [.funcDef "f" [] none
        [.assign [.name "x"] (.const a),
         .ret (some (.name "x")),
         .assign [.name "x"] (.const b)]], []⟩ = .ok (tyOfConst b) := by
  intro a b
  simp [get_return_type, walkStmts, stmtChildren, _analyze_function_body,
    seedParams, analyzeWalk, collectReturns, assignTargets, unifyReturns,
    _infer_expr_type, symLookup, symInsert, bind, Except.bind, List.lookup]

/-- The function `def f(): return {{"a": 1}: 2}` — a syntactically valid
function whose returned dict literal has a dict literal as key. -/
def c3Func : Func :=
  ⟨"f", [], .parsed [.funcDef "f" [] none
    [.ret (some (.dict [(some (.dict [(some (.const (.strV "a")), .const .intV)]),
                         .const .intV)]))]], []⟩

/-- Claim C3 (code bug): inference is not total — on the well-formed
function `def f(): return {{"a": 1}: 2}` the non-string-key branch of
`_create_typed_dict_from_dict` appends the raw key AST node to
`nested_path` (annotated `list[str]` in the source), and the nested
string-keyed dict inside that key then feeds the node to
`_sanitize_name`, which iterates it and raises `TypeError` instead of
degrading to `Unknown`. -/
theorem c3_dict_key_dict_raises :
    get_return_type c3Func = .error .typeError := by
  simp [get_return_type, c3Func, walkStmts, stmtChildren,
    _analyze_function_body, seedParams, analyzeWalk, collectReturns,
    unifyReturns, _infer_expr_type, _create_typed_dict_from_dict,
    _collect_fields, _infer_keys, _infer_values, tdName, tdNameLoop,
    _sanitize_name, tyOfConst, dedupTy, flattenU, mkUnionT, symLookup,
    symInsert, builtinTy, _get_module_type, bind, Except.bind, List.lookup]

/-- The function `def get_data(): return {"a": 1, "b": "x"}`. -/
def c4Func : Func :=
  ⟨"get_data", [], .parsed [.funcDef "get_data" [] none
    [.ret (some (.dict [(some (.const (.strV "a")), .const .intV),
                        (some (.const (.strV "b")), .const (.strV "x"))]))]], []⟩

/-- Claim C4: a function whose sole return value is the dict literal with
string keys `a` mapped to an int and `b` mapped to a string infers to a
synthesized record (`TypedDict`) with fields `a : int` and `b : str` in
the literal's order, named by capitalizing the function's name and
appending `Return` (here `get_data` gives `GetDataReturn`). -/
theorem c4_sole_dict_return_record :
    get_return_type c4Func =
      .ok (.typedDict 0 "GetDataReturn" [("a", Ty.int), ("b", Ty.str)]) := by
  simp only [get_return_type, c4Func, walkStmts, stmtChildren,
    _analyze_function_body, seedParams, analyzeWalk, collectReturns,
    unifyReturns, _infer_expr_type, _create_typed_dict_from_dict,
    _collect_fields, _infer_keys, _infer_values, tdName, tdNameLoop,
    _sanitize_name, tyOfConst, dedupTy, flattenU, mkUnionT, symLookup,
    symInsert, builtinTy, _get_module_type, bind, Except.bind, List.lookup,
    List.append_eq, List.cons_append, List.nil_append]
  decide

/-- A successful element-wise inference of a non-empty literal yields a
non-empty type list. -/
theorem _infer_list_cons_ne_nil :
    ∀ (e : Expr) (rest : List Expr) (st : SymTable) (f : Func)
      (path : List PathComp) (uid : Nat) (ts : List Ty) (uid1 : Nat),
      _infer_list (e :: rest) st f path uid = .ok (ts, uid1) → ts ≠ [] := by
  intro e rest st f path uid ts uid1 h
  simp only [_infer_list] at h
  cases hi : _infer_expr_type e st f path uid with
  | error err => rw [hi] at h; simp [bind, Except.bind] at h
  | ok p =>
      obtain ⟨t, u1⟩ := p
      rw [hi] at h
      simp only [bind, Except.bind] at h
      cases hr : _infer_list rest st f path u1 with
      | error err => rw [hr] at h; simp at h
      | ok q =>
          obtain ⟨ts2, u2⟩ := q
          rw [hr] at h
          simp only [Except.ok.injEq, Prod.mk.injEq] at h
          rw [← h.1]
          simp

/-- A function handle never consulted by the statements under test. -/
def fDummy : Func := ⟨"f", [], .parsed [], []⟩

/-- Counterexample to claim C5: for the tuple literal with an int and a
string element the engine produces the positional type
`tuple[int, str]` — the element types are neither unified into the
`Union` of the distinct element types observed nor homogenized, contrary
to the claim's reading of tuples alongside lists and sets. -/
theorem c5_counterexample_tuple :
    _infer_expr_type (.tupleLit [.const .intV, .const (.strV "x")]) [] fDummy [] 0 =
      .ok (.tupleG [Ty.int, Ty.str], 0)
    ∧ Ty.tupleG [Ty.int, Ty.str] ≠ .tupleG [.union [Ty.int, Ty.str]]
    ∧ Ty.tupleG [Ty.int, Ty.str] ≠ .union [Ty.int, Ty.str] := by
  refine ⟨?_, by decide, by decide⟩
  simp [_infer_expr_type, _infer_list, tyOfConst, bind, Except.bind]

/-- Amended claim C5: empty list and set literals have element type
`Unknown` (`Any`) and the empty tuple is the designated empty-tuple type;
a non-empty list or set literal whose elements all infer to one shared
type is the homogeneous container of that type; a non-empty list or set
literal with two or more distinct (union-free) element types is the
container of the `Union` of the distinct element types in encounter
order; a non-empty tuple literal, however, is typed positionally as
`tuple[t1, ..., tn]` — its element types are never unified. -/
theorem c5_amended_container_literals :
    (∀ (st : SymTable) (f : Func) (path : List PathComp) (uid : Nat),
       _infer_expr_type (.listLit []) st f path uid = .ok (.listG .any, uid)
       ∧ _infer_expr_type (.setLit []) st f path uid = .ok (.setG .any, uid)
       ∧ _infer_expr_type (.tupleLit []) st f path uid = .ok (.tupleG [], uid))
    ∧ (∀ (e : Expr) (rest : List Expr) (st : SymTable) (f : Func)
        (path : List PathComp) (uid : Nat) (ts : List Ty) (uid1 : Nat) (t0 : Ty),
        _infer_list (e :: rest) st f path uid = .ok (ts, uid1) →
        (∀ t ∈ ts, t = t0) →
        _infer_expr_type (.listLit (e :: rest)) st f path uid = .ok (.listG t0, uid1)
        ∧ _infer_expr_type (.setLit (e :: rest)) st f path uid = .ok (.setG t0, uid1))
    ∧ (∀ (e : Expr) (rest : List Expr) (st : SymTable) (f : Func)
        (path : List PathComp) (uid : Nat) (ts : List Ty) (uid1 : Nat) (d : List Ty),
        _infer_list (e :: rest) st f path uid = .ok (ts, uid1) →
        (∀ t ∈ ts, t.isUnion = false) → dedupTy ts = d → 2 ≤ d.length →
        _infer_expr_type (.listLit (e :: rest)) st f path uid =
          .ok (.listG (.union d), uid1)
        ∧ _infer_expr_type (.setLit (e :: rest)) st f path uid =
          .ok (.setG (.union d), uid1))
    ∧ (∀ (e : Expr) (rest : List Expr) (st : SymTable) (f : Func)
        (path : List PathComp) (uid : Nat) (ts : List Ty) (uid1 : Nat),
        _infer_list (e :: rest) st f path uid = .ok (ts, uid1) →
        _infer_expr_type (.tupleLit (e :: rest)) st f path uid =
          .ok (.tupleG ts, uid1)) := by
  refine ⟨?_, ?_, ?_, ?_⟩
  · intro st f path uid
    refine ⟨?_, ?_, ?_⟩ <;> simp [_infer_expr_type]
  · intro e rest st f path uid ts uid1 t0 hl hall
    have hne := _infer_list_cons_ne_nil e rest st f path uid ts uid1 hl
    have hd := dedupTy_all_eq ts t0 hne hall
    constructor <;> simp [_infer_expr_type, hl, hd, bind, Except.bind]
  · intro e rest st f path uid ts uid1 d hl hfree hdd hlen
    rcases d with _ | ⟨d0, _ | ⟨d1, ds⟩⟩
    · simp at hlen
    · simp at hlen
    · have hu := mkUnionT_unionFree_multi ts (d0 :: d1 :: ds) hfree hdd (by simp)
      constructor <;> simp [_infer_expr_type, hl, hdd, hu, bind, Except.bind]
  · intro e rest st f path uid ts uid1 hl
    simp only [_infer_expr_type]
    rw [hl]
    simp [bind, Except.bind]

/-- Witness for C5: `[1, 1]` infers to `list[int]`; `[1, "x"]` infers to
`list[Union[int, str]]`; `(1, "x")` infers to `tuple[int, str]`. -/
theorem c5_witness :
    _infer_expr_type (.listLit [.const .intV, .const .intV]) [] fDummy [] 0 =
      .ok (.listG Ty.int, 0)
    ∧ _infer_expr_type (.listLit [.const .intV, .const (.strV "x")]) [] fDummy [] 0 =
      .ok (.listG (.union [Ty.int, Ty.str]), 0)
    ∧ _infer_expr_type (.tupleLit [.const .intV, .const (.strV "x")]) [] fDummy [] 0 =
      .ok (.tupleG [Ty.int, Ty.str], 0) :=
  ⟨(c5_amended_container_literals.2.1 (.const .intV) [.const .intV] [] fDummy [] 0
      [Ty.int, Ty.int] 0 Ty.int
      (by simp [_infer_list, _infer_expr_type, tyOfConst, bind, Except.bind])
      (by decide)).1,
   (c5_amended_container_literals.2.2.1 (.const .intV) [.const (.strV "x")] [] fDummy [] 0
      [Ty.int, Ty.str] 0 [Ty.int, Ty.str]
      (by simp [_infer_list, _infer_expr_type, tyOfConst, bind, Except.bind])
      (by decide) (by decide) (by decide)).1,
   c5_amended_container_literals.2.2.2 (.const .intV) [.const (.strV "x")] [] fDummy [] 0
      [Ty.int, Ty.str] 0
      (by simp [_infer_list, _infer_expr_type, tyOfConst, bind, Except.bind])⟩

/-- The path-derived suffix of a synthesized record name: the
concatenation of the capitalized, sanitized path components (raising on a
non-string component exactly as the name-building loop does). -/
def tdSuffix : List PathComp → Except Err String
  | [] => .ok ""
  | comp :: rest => do
      let s ← _sanitize_name comp
      let restS ← tdSuffix rest
      .ok (_snake_case_to_capital_case s ++ restS)

theorem tdNameLoop_eq :
    ∀ (p : List PathComp) (acc : String),
      tdNameLoop acc p = (tdSuffix p).map (fun suf => acc ++ suf) := by
  intro p
  induction p with
  | nil => intro acc; simp [tdNameLoop, tdSuffix, Except.map]
  | cons comp rest ih =>
      intro acc
      cases comp with
      | strComp s =>
          simp only [tdNameLoop, tdSuffix, _sanitize_name, bind, Except.bind]
          rw [ih]
          cases tdSuffix rest with
          | error e => simp [Except.map]
          | ok suf => simp [Except.map, String.append_assoc]
      | nodeComp =>
          simp [tdNameLoop, tdSuffix, _sanitize_name, bind, Except.bind, Except.map]

theorem string_append_left_cancel {s a b : String} (h : s ++ a = s ++ b) :
    a = b := by
  have hd := congrArg String.data h
  simp only [String.data_append] at hd
  have hab : a.data = b.data := List.append_cancel_left hd
  cases a
  cases b
  exact congrArg String.mk (by simpa using hab)

/-- The function `def f(): return {"ab": {"a": 1}, "aB": {"a": 1}}`,
whose two nested record literals sit at different dictionary positions
(`ab` and `aB`). -/
def c6CollideFunc : Func :=
  ⟨"f", [], .parsed [.funcDef "f" [] none
    [.ret (some (.dict
      [(some (.const (.strV "ab")),
        .dict [(some (.const (.strV "a")), .const .intV)]),
       (some (.const (.strV "aB")),
        .dict [(some (.const (.strV "a")), .const .intV)])]))]], []⟩

/-- Counterexample to claim C6: the positions `ab` and `aB` are distinct,
yet Python's `str.capitalize()` lower-cases the tail of each sanitized
component, so both nested records are named `FReturnAb` — the synthesized
names collide for distinct nested positions. -/
theorem c6_counterexample :
    tdName "f" [.strComp "ab"] = tdName "f" [.strComp "aB"]
    ∧ get_return_type c6CollideFunc = .ok (.typedDict 2 "FReturn"
        [("ab", .typedDict 0 "FReturnAb" [("a", Ty.int)]),
         ("aB", .typedDict 1 "FReturnAb" [("a", Ty.int)])]) := by
  refine ⟨by decide, ?_⟩
  simp only [get_return_type, c6CollideFunc, walkStmts, stmtChildren,
    _analyze_function_body, seedParams, analyzeWalk, collectReturns,
    unifyReturns, _infer_expr_type, _create_typed_dict_from_dict,
    _collect_fields, _infer_keys, _infer_values, tdName, tdNameLoop,
    _sanitize_name, tyOfConst, dedupTy, dedupAux, flattenU, mkUnionT,
    symLookup, symInsert, builtinTy, _get_module_type, bind, Except.bind,
    List.lookup, List.append_eq, List.cons_append, List.nil_append]
  decide

/-- The function `def f(): return {"x": {"a": 1}, "y": {"a": 1}}`. -/
def c6DistinctFunc : Func :=
  ⟨"f", [], .parsed [.funcDef "f" [] none
    [.ret (some (.dict
      [(some (.const (.strV "x")),
        .dict [(some (.const (.strV "a")), .const .intV)]),
       (some (.const (.strV "y")),
        .dict [(some (.const (.strV "a")), .const .intV)])]))]], []⟩

/-- Amended claim C6: two record literals at different nested dictionary
positions receive distinct synthesized names exactly when their
capitalized-sanitized path suffixes differ — the name is the function
prefix concatenated with that suffix, so equal names force equal
suffixes (sanitization and capitalization may collapse distinct keys such
as `ab` vs `aB`, which is the only source of collisions); for positions
with distinct suffixes, such as `x` and `y`, the synthesized names are
distinct even though the two records have identical field shapes. -/
theorem c6_amended_names_from_suffixes :
    (∀ (fname : String) (p1 p2 : List PathComp) (n : String),
       tdName fname p1 = .ok n → tdName fname p2 = .ok n →
       tdSuffix p1 = tdSuffix p2)
    ∧ get_return_type c6DistinctFunc = .ok (.typedDict 2 "FReturn"
        [("x", .typedDict 0 "FReturnX" [("a", Ty.int)]),
         ("y", .typedDict 1 "FReturnY" [("a", Ty.int)])])
    ∧ "FReturnX" ≠ "FReturnY" := by
  refine ⟨?_, ?_, by decide⟩
  · intro fname p1 p2 n h1 h2
    rw [tdName, tdNameLoop_eq] at h1 h2
    cases hs1 : tdSuffix p1 with
    | error e => rw [hs1] at h1; simp [Except.map] at h1
    | ok s1 =>
        rw [hs1] at h1
        simp only [Except.map, Except.ok.injEq] at h1
        cases hs2 : tdSuffix p2 with
        | error e => rw [hs2] at h2; simp [Except.map] at h2
        | ok s2 =>
            rw [hs2] at h2
            simp only [Except.map, Except.ok.injEq] at h2
            rw [string_append_left_cancel (h1.trans h2.symm)]
  · simp only [get_return_type, c6DistinctFunc, walkStmts, stmtChildren,
      _analyze_function_body, seedParams, analyzeWalk, collectReturns,
      unifyReturns, _infer_expr_type, _create_typed_dict_from_dict,
      _collect_fields, _infer_keys, _infer_values, tdName, tdNameLoop,
      _sanitize_name, tyOfConst, dedupTy, dedupAux, flattenU, mkUnionT,
      symLookup, symInsert, builtinTy, _get_module_type, bind, Except.bind,
      List.lookup, List.append_eq, List.cons_append, List.nil_append]
    decide

/-- Witness for C6: applying the amended claim to the colliding positions
`ab` and `aB` (both named `FReturnAb`) shows their sanitized-capitalized
suffixes coincide. -/
theorem c6_witness :
    tdSuffix [.strComp "ab"] = tdSuffix [.strComp "aB"] :=
  c6_amended_names_from_suffixes.1 "f" [.strComp "ab"] [.strComp "aB"]
    "FReturnAb" (by decide) (by decide)

/-- A function handle whose source text cannot be retrieved at all
(`inspect.getsource` raises). -/
def c7NoSourceFunc : Func := ⟨"f", [], .noSource, []⟩

/-- A function handle whose source text is retrieved but cannot be parsed
into a syntax tree (e.g. an indented method body: `ast.parse` raises
`SyntaxError`). -/
def c7ParseFunc : Func := ⟨"f", [], .parseErr, []⟩

/-- Counterexample to claim C7: when the retrieved source cannot be
parsed, `get_return_type` does not fall back to `Unknown` — the
`SyntaxError` of `ast.parse` propagates to the caller, because only
`inspect.getsource` sits inside the `try` block. -/
theorem c7_counterexample :
    get_return_type c7ParseFunc = .error .parseErr
    ∧ (Except.error Err.parseErr ≠ (.ok Ty.any : Except Err Ty)) := by
  refine ⟨?_, by decide⟩
  simp [get_return_type, c7ParseFunc, List.lookup]

/-- Amended claim C7: the fallback to `Unknown` (`Any`) applies only to a
failure to retrieve the source text; a retrieved text that fails to parse
raises into the caller. -/
theorem c7_amended_only_getsource_guarded :
    ∀ (f : Func), f.anns.lookup "return" = none →
      (f.src = .noSource → get_return_type f = .ok .any)
      ∧ (f.src = .parseErr → get_return_type f = .error .parseErr) := by
  intro f h
  constructor <;> intro hs <;> simp [get_return_type, h, hs]

/-- Witness for C7: the two fallback behaviours at concrete handles. -/
theorem c7_witness :
    get_return_type c7NoSourceFunc = .ok Ty.any
    ∧ get_return_type c7ParseFunc = .error .parseErr :=
  ⟨(c7_amended_only_getsource_guarded c7NoSourceFunc (by simp [c7NoSourceFunc, List.lookup])).1 rfl,
   (c7_amended_only_getsource_guarded c7ParseFunc (by simp [c7ParseFunc, List.lookup])).2 rfl⟩

/-- Whether a `Type` value is engine-shaped with respect to unions: a
union it may be has at least two members, already deduplicated, none of
which is itself a union.  Every union the engine constructs has this
shape (`Union[...]` flattens one level, deduplicates and collapses
singletons), and every non-union value has it trivially. -/
def Ty.wfUnion : Ty → Bool
  | .union us =>
      decide (2 ≤ us.length) && decide (dedupTy us = us) &&
        us.all (fun u => !u.isUnion)
  | _ => true

theorem wfUnion_of_not_isUnion (t : Ty) (h : t.isUnion = false) :
    t.wfUnion = true := by
  cases t <;> simp_all [Ty.isUnion, Ty.wfUnion]

/-- Flattening a list of engine-shaped values yields only non-union
values: non-union members pass through and a union contributes its
(non-union) members. -/
theorem flattenU_nonUnion :
    ∀ (ts : List Ty), (∀ t ∈ ts, t.wfUnion = true) →
      ∀ x ∈ flattenU ts, x.isUnion = false := by
  intro ts
  induction ts with
  | nil => intro _ x hx; simp [flattenU] at hx
  | cons t rest ih =>
      intro h x hx
      have hrest : ∀ t2 ∈ rest, t2.wfUnion = true :=
        fun t2 ht2 => h t2 (by simp [ht2])
      cases t with
      | union us =>
          simp only [flattenU] at hx
          rcases List.mem_append.mp hx with hxu | hxr
          · have hwf := h (.union us) (by simp)
            simp only [Ty.wfUnion, Bool.and_eq_true, List.all_eq_true] at hwf
            have := hwf.2 x hxu
            simpa using this
          · exact ih hrest x hxr
      | atom a =>
          simp only [flattenU] at hx
          rcases List.mem_cons.mp hx with rfl | hxr
          · simp [Ty.isUnion]
          · exact ih hrest x hxr
      | listG t1 =>
          simp only [flattenU] at hx
          rcases List.mem_cons.mp hx with rfl | hxr
          · simp [Ty.isUnion]
          · exact ih hrest x hxr
      | setG t1 =>
          simp only [flattenU] at hx
          rcases List.mem_cons.mp hx with rfl | hxr
          · simp [Ty.isUnion]
          · exact ih hrest x hxr
      | dictG k v =>
          simp only [flattenU] at hx
          rcases List.mem_cons.mp hx with rfl | hxr
          · simp [Ty.isUnion]
          · exact ih hrest x hxr
      | tupleG tts =>
          simp only [flattenU] at hx
          rcases List.mem_cons.mp hx with rfl | hxr
          · simp [Ty.isUnion]
          · exact ih hrest x hxr
      | typedDict u n fl =>
          simp only [flattenU] at hx
          rcases List.mem_cons.mp hx with rfl | hxr
          · simp [Ty.isUnion]
          · exact ih hrest x hxr

/-- The deduplication pass emits a duplicate-free list disjoint from the
already-seen set. -/
theorem dedupAux_nodup_disjoint :
    ∀ (l seen : List Ty),
      (dedupAux l seen).Nodup ∧ ∀ x ∈ dedupAux l seen, x ∉ seen := by
  intro l
  induction l with
  | nil => intro seen; simp [dedupAux]
  | cons t rest ih =>
      intro seen
      by_cases ht : t ∈ seen
      · simp only [dedupAux, if_pos ht]
        exact ih seen
      · simp only [dedupAux, if_neg ht]
        obtain ⟨hnd, hdis⟩ := ih (t :: seen)
        refine ⟨List.nodup_cons.mpr ⟨fun hmem => (hdis t hmem) (by simp), hnd⟩, ?_⟩
        intro x hx
        rcases List.mem_cons.mp hx with rfl | hx2
        · exact ht
        · exact fun hxseen => (hdis x hx2) (by simp [hxseen])

/-- Deduplication is the identity on duplicate-free lists disjoint from
the seen set. -/
theorem dedupAux_of_nodup_disjoint :
    ∀ (d seen : List Ty), d.Nodup → (∀ x ∈ d, x ∉ seen) →
      dedupAux d seen = d := by
  intro d
  induction d with
  | nil => intro seen _ _; rfl
  | cons x d2 ih =>
      intro seen hnd hdis
      have hx : x ∉ seen := hdis x (by simp)
      simp only [dedupAux, if_neg hx]
      congr 1
      apply ih (x :: seen) (List.nodup_cons.mp hnd).2
      intro y hy hmem
      rcases List.mem_cons.mp hmem with rfl | hy2
      · exact (List.nodup_cons.mp hnd).1 hy
      · exact hdis y (by simp [hy]) hy2

/-- Deduplication is idempotent. -/
theorem dedupTy_idem (l : List Ty) : dedupTy (dedupTy l) = dedupTy l := by
  obtain ⟨hnd, _⟩ := dedupAux_nodup_disjoint l []
  simp only [dedupTy]
  exact dedupAux_of_nodup_disjoint _ [] hnd (fun x _ h => by simp at h)

/-- A tail whose members all already occur up front (or are already
seen) contributes nothing to deduplication. -/
theorem dedupAux_append_subsumed :
    ∀ (l1 l2 seen : List Ty), (∀ t ∈ l2, t ∈ l1 ∨ t ∈ seen) →
      dedupAux (l1 ++ l2) seen = dedupAux l1 seen := by
  intro l1
  induction l1 with
  | nil =>
      intro l2 seen h
      simp only [List.nil_append]
      rw [dedupAux_all_seen l2 seen
        (fun t ht => (h t ht).resolve_left (fun h1 => by simp at h1))]
      rfl
  | cons x l1x ih =>
      intro l2 seen h
      simp only [List.cons_append, dedupAux]
      by_cases hx : x ∈ seen
      · rw [if_pos hx, if_pos hx]
        apply ih
        intro t ht
        rcases h t ht with h1 | h2
        · rcases List.mem_cons.mp h1 with rfl | h3
          · exact Or.inr hx
          · exact Or.inl h3
        · exact Or.inr h2
      · rw [if_neg hx, if_neg hx]
        congr 1
        apply ih
        intro t ht
        rcases h t ht with h1 | h2
        · rcases List.mem_cons.mp h1 with rfl | h3
          · exact Or.inr (by simp)
          · exact Or.inl h3
        · exact Or.inr (by simp [h2])

/-- Every element of the flattening of copies of one union is one of
that union's members. -/
theorem mem_flattenU_of_all_union :
    ∀ (ts us : List Ty) (x : Ty), (∀ t ∈ ts, t = .union us) →
      x ∈ flattenU ts → x ∈ us := by
  intro ts us x
  induction ts with
  | nil => intro _ hx; simp [flattenU] at hx
  | cons t rest ih =>
      intro h hx
      have ht : t = .union us := h t (by simp)
      subst ht
      simp only [flattenU] at hx
      rcases List.mem_append.mp hx with h1 | h2
      · exact h1
      · exact ih (fun t2 ht2 => h t2 (by simp [ht2])) h2

/-- Flattening one or more copies of a union deduplicates to the
deduplication of its member list. -/
theorem dedupTy_flattenU_all_union :
    ∀ (ts us : List Ty), ts ≠ [] → (∀ t ∈ ts, t = .union us) →
      dedupTy (flattenU ts) = dedupTy us := by
  intro ts us hne h
  match ts with
  | [] => exact absurd rfl hne
  | t :: rest =>
      have ht : t = .union us := h t (by simp)
      subst ht
      simp only [flattenU, dedupTy]
      exact dedupAux_append_subsumed us (flattenU rest) []
        (fun x hx => Or.inl (mem_flattenU_of_all_union rest us x
          (fun t2 ht2 => h t2 (by simp [ht2])) hx))

/-- `Union[tuple(set(ts))]` over a non-empty list whose members are all
equal to one engine-shaped value collapses to that value — also when the
value is itself a union. -/
theorem mkUnionT_all_eq_wf (ts : List Ty) (t0 : Ty) (hne : ts ≠ [])
    (hall : ∀ t ∈ ts, t = t0) (hwf : t0.wfUnion = true) :
    mkUnionT ts = .ok t0 := by
  cases t0 with
  | union us =>
      simp only [Ty.wfUnion, Bool.and_eq_true, decide_eq_true_eq,
        List.all_eq_true] at hwf
      obtain ⟨⟨hlen, hdup⟩, _⟩ := hwf
      rw [mkUnionT, dedupTy_flattenU_all_union ts us hne hall, hdup]
      rcases us with _ | ⟨u0, _ | ⟨u1, urest⟩⟩
      · simp at hlen
      · simp at hlen
      · rfl
  | atom a => exact mkUnionT_all_eq _ _ hne hall (by simp [Ty.isUnion])
  | listG t => exact mkUnionT_all_eq _ _ hne hall (by simp [Ty.isUnion])
  | setG t => exact mkUnionT_all_eq _ _ hne hall (by simp [Ty.isUnion])
  | dictG k v => exact mkUnionT_all_eq _ _ hne hall (by simp [Ty.isUnion])
  | tupleG tts => exact mkUnionT_all_eq _ _ hne hall (by simp [Ty.isUnion])
  | typedDict u n fl => exact mkUnionT_all_eq _ _ hne hall (by simp [Ty.isUnion])

/-- The function `def f():` with two textually identical record returns
(the second is statically collected even though unreachable):
`return {"a": 1}` twice. -/
def c8TwoRecFunc : Func :=
  ⟨"f", [], .parsed [.funcDef "f" [] none
    [.ret (some (.dict [(some (.const (.strV "a")), .const .intV)])),
     .ret (some (.dict [(some (.const (.strV "a")), .const .intV)]))]], []⟩

/-- Counterexample to claim C8: both returns of `c8TwoRecFunc` yield
structurally identical record types (same name `FReturn`, same single
field `a : int`), yet the result is a two-member union — each synthesis
call creates a fresh `TypedDict` class, and Python compares such classes
by object identity (modelled by the `uid`), so `set(...)` does not
collapse them. -/
theorem c8_counterexample :
    get_return_type c8TwoRecFunc = .ok (.union
      [.typedDict 0 "FReturn" [("a", Ty.int)],
       .typedDict 1 "FReturn" [("a", Ty.int)]])
    ∧ (Ty.typedDict 0 "FReturn" [("a", Ty.int)] ≠
        .typedDict 1 "FReturn" [("a", Ty.int)]) := by
  refine ⟨?_, by decide⟩
  simp only [get_return_type, c8TwoRecFunc, walkStmts, stmtChildren,
    _analyze_function_body, seedParams, analyzeWalk, collectReturns,
    unifyReturns, _infer_expr_type, _create_typed_dict_from_dict,
    _collect_fields, _infer_keys, _infer_values, tdName, tdNameLoop,
    _sanitize_name, tyOfConst, dedupTy, dedupAux, flattenU, mkUnionT,
    symLookup, symInsert, builtinTy, _get_module_type, bind, Except.bind,
    List.lookup, List.append_eq, List.cons_append, List.nil_append]
  decide

/-- The function `def f(c):` with two identical ternary-typed returns:
`return 1 if c else "s"` twice (the second statically collected). -/
def c8TernaryFunc : Func :=
  ⟨"f", [], .parsed [.funcDef "f" [] none
    [.ret (some (.ifExp (.name "c") (.const .intV) (.const (.strV "s")))),
     .ret (some (.ifExp (.name "c") (.const .intV) (.const (.strV "s"))))]], []⟩

/-- Amended claim C8: no operation constructs a union with fewer than two
members, and equal type values collapse — unions included.  Over members
of the engine's shape (`Ty.wfUnion`: a union has at least two
deduplicated, non-nested members; every non-union value qualifies),
`Union[tuple(set(...))]` never yields a union with fewer than two members
and its result is again engine-shaped — so the shape is exactly what the
engine produces and feeds back in.  A non-empty collection of return
types all equal to one engine-shaped value collapses to that single
value, and a ternary whose two branches infer the same engine-shaped
value collapses to it; concretely, a function with two identical
ternary-typed returns infers the single union `int | str`.  Equality is
Python `==`: separately synthesized `TypedDict` classes compare by
identity, so structurally identical records from different synthesis
calls are not equal and do not collapse (see the counterexample). -/
theorem c8_amended_union_collapse :
    (∀ (ts : List Ty) (r : Ty), (∀ t ∈ ts, t.wfUnion = true) →
       mkUnionT ts = .ok r →
       (∀ us, r = .union us → 2 ≤ us.length) ∧ r.wfUnion = true)
    ∧ (∀ (ts : List Ty) (t0 : Ty), ts ≠ [] → (∀ t ∈ ts, t = t0) →
       t0.wfUnion = true → unifyReturns ts = .ok t0)
    ∧ (∀ (c a b : Expr) (st : SymTable) (f : Func) (path : List PathComp)
        (uid : Nat) (t : Ty) (uid1 uid2 : Nat),
        _infer_expr_type a st f path uid = .ok (t, uid1) →
        _infer_expr_type b st f path uid1 = .ok (t, uid2) →
        t.wfUnion = true →
        _infer_expr_type (.ifExp c a b) st f path uid = .ok (t, uid2))
    ∧ get_return_type c8TernaryFunc = .ok (.union [Ty.int, Ty.str]) := by
  refine ⟨?_, ?_, ?_, ?_⟩
  · intro ts r h hok
    have hflat := flattenU_nonUnion ts h
    rw [mkUnionT] at hok
    rcases hd : dedupTy (flattenU ts) with _ | ⟨d0, _ | ⟨d1, ds⟩⟩ <;>
      rw [hd] at hok
    · simp at hok
    · simp only [Except.ok.injEq] at hok
      subst hok
      have hnu : d0.isUnion = false :=
        hflat d0 (mem_of_mem_dedupTy _ d0 (by simp [hd]))
      refine ⟨?_, wfUnion_of_not_isUnion d0 hnu⟩
      intro us hr
      rw [hr] at hnu
      simp [Ty.isUnion] at hnu
    · simp only [Except.ok.injEq] at hok
      subst hok
      constructor
      · intro us hr
        injection hr with h2
        simp [← h2]
      · simp only [Ty.wfUnion, Bool.and_eq_true, decide_eq_true_eq,
          List.all_eq_true]
        refine ⟨⟨by simp, ?_⟩, ?_⟩
        · rw [← hd]
          exact dedupTy_idem _
        · intro u hu
          have hmem : u ∈ flattenU ts :=
            mem_of_mem_dedupTy _ u (by rw [hd]; exact hu)
          simp [hflat u hmem]
  · intro ts t0 hne hall hwf
    match ts with
    | [] => exact absurd rfl hne
    | [t] => simp [unifyReturns, hall t (by simp)]
    | t1 :: t2 :: rest =>
        simp only [unifyReturns]
        exact mkUnionT_all_eq_wf _ t0 (by simp) hall hwf
  · intro c a b st f path uid t uid1 uid2 h1 h2 hwf
    have hmk : mkUnionT [t, t] = .ok t :=
      mkUnionT_all_eq_wf [t, t] t (by simp) (by simp) hwf
    simp [_infer_expr_type, h1, h2, hmk, bind, Except.bind]
  · simp only [get_return_type, c8TernaryFunc, walkStmts, stmtChildren,
      _analyze_function_body, seedParams, analyzeWalk, collectReturns,
      unifyReturns, _infer_expr_type, tyOfConst, dedupTy, dedupAux,
      flattenU, mkUnionT, symLookup, symInsert, builtinTy,
      _get_module_type, bind, Except.bind, List.lookup, List.append_eq,
      List.cons_append, List.nil_append]
    decide

/-- Witness for C8: `int | str` is engine-shaped (via the closure
conjunct applied to a construction that yields it); two equal `int | str`
returns collapse at the driver to that single union; and a ternary whose
branches both infer `int` collapses to `int`. -/
theorem c8_witness :
    Ty.wfUnion (.union [Ty.int, Ty.str]) = true
    ∧ unifyReturns [.union [Ty.int, Ty.str], .union [Ty.int, Ty.str]] =
        .ok (.union [Ty.int, Ty.str])
    ∧ _infer_expr_type (.ifExp .compare (.const .intV) (.const .intV))
        [] fDummy [] 0 = .ok (Ty.int, 0) :=
  ⟨(c8_amended_union_collapse.1 [Ty.int, Ty.str] (.union [Ty.int, Ty.str])
      (by decide) (by decide)).2,
   c8_amended_union_collapse.2.1
     [.union [Ty.int, Ty.str], .union [Ty.int, Ty.str]]
     (.union [Ty.int, Ty.str]) (by decide) (by decide) (by decide),
   c8_amended_union_collapse.2.2.1 .compare (.const .intV) (.const .intV)
     [] fDummy [] 0 Ty.int 0 0
     (by simp [_infer_expr_type, tyOfConst])
     (by simp [_infer_expr_type, tyOfConst]) (by decide)⟩

/-- Claim C9: `fill_inferred_type_hints` is idempotent and write-once:
a successful call leaves the `return` annotation slot holding exactly the
inferred return type of the function (whether it computed it now or found
it already present), and a second call on the result changes nothing — it
short-circuits on the now-present annotation. -/
theorem c9_fill_idempotent_write_once :
    ∀ (f f2 : Func), fill_inferred_type_hints f = .ok f2 →
      (∃ t, f2.anns.lookup "return" = some t ∧ get_return_type f = .ok t)
      ∧ fill_inferred_type_hints f2 = .ok f2 := by
  intro f f2 h
  cases hl : f.anns.lookup "return" with
  | some t =>
      simp only [fill_inferred_type_hints, hl, Except.ok.injEq] at h
      subst h
      exact ⟨⟨t, hl, by simp [get_return_type, hl]⟩,
        by simp [fill_inferred_type_hints, hl]⟩
  | none =>
      simp only [fill_inferred_type_hints, hl] at h
      cases hg : get_return_type f with
      | error e => rw [hg] at h; simp [bind, Except.bind] at h
      | ok t =>
          rw [hg] at h
          simp only [bind, Except.bind, Except.ok.injEq] at h
          subst h
          have hl2 : (f.anns ++ [("return", t)]).lookup "return" = some t :=
            lookup_append_of_none f.anns "return" t hl
          exact ⟨⟨t, hl2, rfl⟩, by simp [fill_inferred_type_hints, hl2]⟩

/-- Witness for C9: filling a function whose source is unavailable writes
`Any` into the slot, and the filled handle is a fixed point. -/
theorem c9_witness :
    (∃ t, (Func.mk "f" [("return", Ty.any)] .noSource []).anns.lookup "return" = some t
       ∧ get_return_type ⟨"f", [], .noSource, []⟩ = .ok t)
    ∧ fill_inferred_type_hints ⟨"f", [("return", Ty.any)], .noSource, []⟩ =
        .ok ⟨"f", [("return", Ty.any)], .noSource, []⟩ :=
  c9_fill_idempotent_write_once ⟨"f", [], .noSource, []⟩
    ⟨"f", [("return", Ty.any)], .noSource, []⟩ rfl

/-- Claim C10 (implicit): `ast.walk` recurses into nested function
definitions, so the statements of an inner `def` — its `return`s and its
assignments — take part in the outer function's analysis: the walk
contains its worklist and is closed under statement children; a
successful collection pass yields one entry per value-carrying `return`
of the walked list (inner returns included); and concretely, for an outer
function with no `return` of its own whose inner `def g` rebinds `x` and
returns it, the outer inferred type is that of the inner assignment —
the inner `return` contributed the only entry and the inner assignment
overwrote the outer symbol-table binding of `x`. -/
theorem c10_nested_defs_contribute :
    (∀ (q : List Stmt) (s : Stmt), s ∈ q → s ∈ walkStmts q)
    ∧ (∀ (q : List Stmt) (s : Stmt), s ∈ walkStmts q →
        ∀ t ∈ stmtChildren s, t ∈ walkStmts q)
    ∧ (∀ (walked : List Stmt) (st : SymTable) (f : Func) (uid : Nat)
        (ts : List Ty) (uid2 : Nat),
        collectReturns walked st f uid = .ok (ts, uid2) →
        ts.length = (walked.filter isRetVal).length)
    ∧ (∀ (a b : ConstVal),
        get_return_type ⟨"f", [], .parsed [.funcDef "f" [] none
          [.assign [.name "x"] (.const a),
           .funcDef "g" [] none
             [.assign [.name "x"] (.const b),
              .ret (some (.name "x"))]]], []⟩ = .ok (tyOfConst b)) := by
  refine ⟨mem_walkStmts_of_mem, walkStmts_children_closed,
    collectReturns_length, ?_⟩
  intro a b
  simp [get_return_type, walkStmts, stmtChildren, _analyze_function_body,
    seedParams, analyzeWalk, collectReturns, assignTargets, unifyReturns,
    _infer_expr_type, symLookup, symInsert, bind, Except.bind, List.lookup]

/-- Witness for C10: a worklist statement is walked; the `return` inside a
nested `def` is walked from the outer worklist; a concrete collection
pass over a walked list containing an inner `def` counts exactly its one
value-carrying `return`; and the concrete overwrite instance. -/
theorem c10_witness :
    (Stmt.ret (some (.const .intV)) ∈
      walkStmts [Stmt.funcDef "g" [] none [.ret (some (.const .intV))]])
    ∧ ([Ty.int].length =
        ((walkStmts [Stmt.funcDef "g" [] none [.ret (some (.const .intV))]]).filter
          isRetVal).length)
    ∧ get_return_type ⟨"f", [], .parsed [.funcDef "f" [] none
        [.assign [.name "x"] (.const .intV),
         .funcDef "g" [] none
           [.assign [.name "x"] (.const (.strV "s")),
            .ret (some (.name "x"))]]], []⟩ = .ok Ty.str :=
  ⟨c10_nested_defs_contribute.2.1
     [Stmt.funcDef "g" [] none [.ret (some (.const .intV))]]
     (.funcDef "g" [] none [.ret (some (.const .intV))])
     (c10_nested_defs_contribute.1
       [Stmt.funcDef "g" [] none [.ret (some (.const .intV))]]
       (.funcDef "g" [] none [.ret (some (.const .intV))]) (by simp))
     (.ret (some (.const .intV))) (by simp [stmtChildren]),
   c10_nested_defs_contribute.2.2.1
     (walkStmts [Stmt.funcDef "g" [] none [.ret (some (.const .intV))]])
     [] fDummy 0 [Ty.int] 0
     (by simp [walkStmts, stmtChildren, collectReturns, _infer_expr_type,
       tyOfConst, bind, Except.bind]),
   c10_nested_defs_contribute.2.2.2 .intV (.strV "s")⟩
